import Mathlib

set_option maxRecDepth 100000

/-!
Verification of the printable-binary codec (src/printable_binary.c).

Bytes are modelled as `Nat` (every value the C program handles is a
`uint8_t`, hence < 256) and byte buffers as `List Nat`.  The C strings fed
to `make_utf8` contain no NUL byte, so `strlen` equals the number of bytes
written in the literal and each curated sequence is transcribed as its
plain list of bytes.  The scan loops of `decode_data` and `format_output`
are written against the suffix of the buffer starting at the C index `i`,
with a fuel argument bounding the number of iterations; every iteration
consumes at least one input byte, so fuel equal to the buffer length (the
value used by the top-level wrappers) never runs out, and the embedding
stays structurally recursive and executable.
-/

/-- The curated override table `special_sequences` of `init_tables`
(src/printable_binary.c, lines 127-189); `none` models a NULL entry. -/
def special_sequences (b : Nat) : Option (List Nat) :=
  match b with
  | 0 => some [0xE2, 0x88, 0x85]
  | 1 => some [0xC2, 0xAF]
  | 2 => some [0xC2, 0xAB]
  | 3 => some [0xC2, 0xBB]
  | 4 => some [0xCF, 0x9E]
  | 5 => some [0xC2, 0xBF]
  | 6 => some [0xC2, 0xA1]
  | 7 => some [0xC2, 0xAA]
  | 8 => some [0xE2, 0x8C, 0xAB]
  | 9 => some [0xE2, 0x87, 0xA5]
  | 10 => some [0xE2, 0x87, 0xA9]
  | 11 => some [0xE2, 0x8A, 0xA7]
  | 12 => some [0xC2, 0xA7]
  | 13 => some [0xE2, 0x8F, 0x8E]
  | 14 => some [0xC8, 0xAF]
  | 15 => some [0xCA, 0x98]
  | 16 => some [0xC6, 0x94]
  | 17 => some [0xC2, 0xB9]
  | 18 => some [0xC2, 0xB2]
  | 19 => some [0xC2, 0xBA]
  | 20 => some [0xC2, 0xB3]
  | 21 => some [0xC2, 0xB5]
  | 22 => some [0xC9, 0xA8]
  | 23 => some [0xC2, 0xAC]
  | 24 => some [0xC2, 0xA9]
  | 25 => some [0xC2, 0xA6]
  | 26 => some [0xC6, 0xB5]
  | 27 => some [0xE2, 0x8E, 0x8B]
  | 28 => some [0xCE, 0x9E]
  | 29 => some [0xC7, 0x81]
  | 30 => some [0xC7, 0x80]
  | 31 => some [0xC2, 0xB6]
  | 32 => some [0xE2, 0x90, 0xA3]
  | 33 => some [0xEF, 0xB9, 0x97]
  | 34 => some [0xCB, 0xB5]
  | 35 => some [0xE2, 0x99, 0xAF]
  | 36 => some [0xEF, 0xB9, 0xA9]
  | 37 => some [0xEF, 0xB9, 0xAA]
  | 38 => some [0xEF, 0xB9, 0xA0]
  | 39 => some [0xCA, 0xBC]
  | 40 => some [0xE2, 0x9D, 0xA8]
  | 41 => some [0xE2, 0x9D, 0xA9]
  | 42 => some [0xEF, 0xB9, 0xA1]
  | 43 => some [0xEF, 0xB9, 0xA2]
  | 45 => some [0xEF, 0xB9, 0xA3]
  | 47 => some [0xE2, 0x81, 0x84]
  | 58 => some [0xEF, 0xB9, 0x95]
  | 59 => some [0xEF, 0xB9, 0x94]
  | 61 => some [0xEF, 0xB9, 0xA6]
  | 63 => some [0xEF, 0xB9, 0x96]
  | 64 => some [0xEF, 0xB9, 0xAB]
  | 91 => some [0xE2, 0x9F, 0xA6]
  | 92 => some [0xE2, 0xA7, 0xB9]
  | 93 => some [0xE2, 0x9F, 0xA7]
  | 96 => some [0xCB, 0x8B]
  | 123 => some [0xE2, 0x9D, 0xB4]
  | 124 => some [0xE2, 0x88, 0xA3]
  | 125 => some [0xE2, 0x9D, 0xB5]
  | 126 => some [0xCB, 0x9C]
  | 127 => some [0xE2, 0x8C, 0xA6]
  | 152 => some [0xC5, 0x8C]
  | 184 => some [0xC5, 0x8F]
  | _ => none

/-- `encode_table[b]` as built by the loop of `init_tables` (lines
191-208).  The branch conditions are transcribed verbatim from the C
(`i >= 33 && i <= 126 && !special_sequences[i]`, etc.; the
`!special_sequences[i]` conjunct is forced by the surrounding `else if`
chain and is represented here by reaching the `none` arm of the match).
A zeroed (length 0) entry of the C array is modelled by `[]`. -/
def encode_table (b : Nat) : List Nat :=
  match special_sequences b with
  | some s => s
  | none =>
    if 33 ≤ b ∧ b ≤ 126 then [b]
    else if 128 ≤ b ∧ b < 192 ∧ b ≠ 152 ∧ b ≠ 184 then [0xC3, b]
    else if 192 ≤ b ∧ b ≠ 184 then [0xC4, b - 192 + 128]
    else []

/-- `utf8_hash` (lines 100-110).  The C passes a byte pointer and a
length; the list argument here is exactly those `len` bytes.  The
`uint16_t` result needs no truncation because for argument bytes < 256
each case stays below 2^16. -/
def utf8_hash (bytes : List Nat) : Nat :=
  match bytes with
  | [b0] => b0
  | [b0, b1] => (b0 <<< 8) ||| b1
  | [b0, b1, b2] => ((b0 &&& 0x0F) <<< 12) ||| ((b1 &&& 0x3F) <<< 6) ||| (b2 &&& 0x3F)
  | _ => 0

/-- Reading `decode_table`/`decode_table_valid` at index `h` after the
build loop of `init_tables` (lines 210-217): the loop walks `i` upward
and, whenever `encode_table[i]` is non-empty, stores `i` at the hash of
its sequence, a later write overwriting an earlier one; `none` models
`decode_table_valid[h] == false`. -/
def decode_table (h : Nat) : Option Nat :=
  (List.range 256).foldl
    (fun acc i =>
      if (encode_table i).length > 0 ∧ utf8_hash (encode_table i) = h then some i else acc)
    none

/-- `utf8_sequence_length` (lines 221-226). -/
def utf8_sequence_length (first_byte : Nat) : Nat :=
  if first_byte < 0x80 then 1
  else if first_byte < 0xE0 then 2
  else if first_byte < 0xF0 then 3
  else 4

/-- `encode_data` (lines 229-242): concatenate each input byte's table
sequence, skipping (impossible for byte values) empty entries. -/
def encode_data : List Nat → List Nat
  | [] => []
  | b :: rest =>
    (if (encode_table b).length > 0 then encode_table b else []) ++ encode_data rest

/-- The inner matching loop of `decode_data` (lines 262-274): starting
from the (already clamped) candidate length, while `1 ≤ len ∧ len ≤ 3`
holds, look the next `len` bytes up in the decode table and shrink on a
miss (also when `len` bytes are not available); a hit returns the decoded
byte together with the consumed length.  A start value of 4 fails the
`len <= 3` loop condition before the first iteration, so the loop body
never runs and no lookup happens at all. -/
def decode_try (input : List Nat) : Nat → Option (Nat × Nat)
  | 0 => none
  | len + 1 =>
    if len + 1 ≤ 3 then
      if len + 1 ≤ input.length then
        match decode_table (utf8_hash (input.take (len + 1))) with
        | some b => some (b, len + 1)
        | none => decode_try input len
      else decode_try input len
    else none

/-- The scan loop of `decode_data` (lines 250-280) over the suffix of the
input that starts at the C index `i`: estimate a length from the first
byte, clamp it to the bytes remaining, run the matching loop, and on a
hit emit the byte and advance by the matched length, otherwise skip one
byte. -/
def decode_go : Nat → List Nat → List Nat
  | 0, _ => []
  | _ + 1, [] => []
  | fuel + 1, first :: rest =>
    let seq_len0 := utf8_sequence_length first
    let seq_len :=
      if (first :: rest).length < seq_len0 then (first :: rest).length else seq_len0
    match decode_try (first :: rest) seq_len with
    | some bl => bl.1 :: decode_go fuel ((first :: rest).drop bl.2)
    | none => decode_go fuel rest

/-- `decode_data` (lines 245-283). -/
def decode_data (input : List Nat) : List Nat :=
  decode_go input.length input

/-- The loop of `format_output` (lines 292-315) over the suffix at the C
index `i`, with `char_count` the number of units already copied: copy the
estimated-length chunk (clipped at the end of the buffer), then insert a
space after every `group_size`-th unit and additionally a newline after
every `groups_per_line`-th group, both only when input remains. -/
def format_go (group_size groups_per_line : Nat) : Nat → Nat → List Nat → List Nat
  | 0, _, _ => []
  | _ + 1, _, [] => []
  | fuel + 1, char_count, first :: rest =>
    let char_len := utf8_sequence_length first
    let chunk := (first :: rest).take char_len
    let rem := (first :: rest).drop char_len
    let cc := char_count + 1
    chunk ++
      (if cc % group_size = 0 ∧ rem ≠ [] then
        32 :: (if (cc / group_size) % groups_per_line = 0 ∧ rem ≠ [] then [10] else [])
      else []) ++
      format_go group_size groups_per_line fuel cc rem

/-- `format_output` (lines 286-318). -/
def format_output (input : List Nat) (group_size groups_per_line : Nat) : List Nat :=
  format_go group_size groups_per_line input.length 0 input

/-- `clean_decode_input` (lines 369-383).  The C compares `char` values
with ' ', '\t', '\n', '\r' (32, 9, 10, 13); bytes ≥ 0x80 compare as
negative signed chars and never equal these positive codes, so the plain
byte comparison is faithful. -/
def clean_decode_input (input : List Nat) : List Nat :=
  input.filter (fun c => !(c == 32 || c == 9 || c == 10 || c == 13))

/-- Modelled from the spec, §4.4 and property 7 (not from the C source):
a formatter that receives the list of complete printable units and can,
by construction, only place separator bytes between whole units.  It is
the refinement target for the formatter-boundary claim: showing
`format_output` on encoder output equals this function proves that no
inserted space or newline falls inside a unit. -/
def formatUnitsSpec (group_size groups_per_line : Nat) : Nat → List (List Nat) → List Nat
  | _, [] => []
  | char_count, u :: us =>
    let cc := char_count + 1
    u ++
      (if cc % group_size = 0 ∧ us ≠ [] then
        32 :: (if (cc / group_size) % groups_per_line = 0 ∧ us ≠ [] then [10] else [])
      else []) ++
      formatUnitsSpec group_size groups_per_line cc us

example : encode_table 0 = [0xE2, 0x88, 0x85] := by decide
example : encode_table 65 = [65] := by decide
example : encode_table 0x80 = [0xC3, 0x80] := by decide
example : encode_table 0xC0 = [0xC4, 0x80] := by decide
example : decode_data (encode_data [0, 65, 128, 192, 255]) = [0, 65, 128, 192, 255] := by decide

/-- Every byte value gets a sequence of 1 to 3 bytes. -/
theorem encode_table_len : ∀ b, b < 256 → 1 ≤ (encode_table b).length ∧ (encode_table b).length ≤ 3 := by decide

/-- The length heuristic applied to a produced sequence's first byte
recovers exactly that sequence's length. -/
theorem encode_table_seqlen :
    ∀ b, b < 256 → utf8_sequence_length ((encode_table b).headD 0) = (encode_table b).length := by decide

/-- The decode table maps the hash of each produced sequence back to its
byte value: the length-dependent hash has no collisions among produced
sequences, so no table entry is overwritten during construction. -/
theorem decode_table_encode :
    ∀ b, b < 256 → decode_table (utf8_hash (encode_table b)) = some b := by decide

/-- No produced sequence contains a whitespace byte. -/
theorem encode_table_no_ws :
    ∀ b, b < 256 → ∀ c ∈ encode_table b, ¬(c = 32 ∨ c = 9 ∨ c = 10 ∨ c = 13) := by decide

theorem if_len_pos (s : List Nat) : (if s.length > 0 then s else []) = s := by
  cases s <;> simp

theorem encode_data_cons (b : Nat) (B : List Nat) :
    encode_data (b :: B) = encode_table b ++ encode_data B := by
  show (if (encode_table b).length > 0 then encode_table b else []) ++ encode_data B = _
  rw [if_len_pos]

/-- Unfolding of one iteration of the decode scan loop. -/
theorem decode_go_cons (fuel first : Nat) (rest : List Nat) :
    decode_go (fuel + 1) (first :: rest) =
      match decode_try (first :: rest)
          (if (first :: rest).length < utf8_sequence_length first
            then (first :: rest).length else utf8_sequence_length first) with
      | some bl => bl.1 :: decode_go fuel ((first :: rest).drop bl.2)
      | none => decode_go fuel rest := rfl

/-- The matching loop hits immediately when the table has an entry at the
starting length. -/
theorem decode_try_hit (input : List Nat) (len : Nat) (h3 : len ≤ 3)
    (hlen : len ≤ input.length) (b : Nat) (h1 : 1 ≤ len)
    (hb : decode_table (utf8_hash (input.take len)) = some b) :
    decode_try input len = some (b, len) := by
  obtain ⟨l, rfl⟩ : ∃ l, len = l + 1 := ⟨len - 1, by omega⟩
  simp [decode_try, h3, hlen, hb]

/-- Decoding a produced sequence followed by anything consumes exactly
that sequence and emits its byte. -/
theorem decode_go_step (b : Nat) (hb : b < 256) (E : List Nat) (fuel : Nat) :
    decode_go (fuel + 1) (encode_table b ++ E) = b :: decode_go fuel E := by
  obtain ⟨hlen1, hlen3⟩ := encode_table_len b hb
  obtain ⟨c, s, hs⟩ : ∃ c s, encode_table b = c :: s := by
    cases h : encode_table b with
    | nil => rw [h] at hlen1; simp at hlen1
    | cons c s => exact ⟨c, s, rfl⟩
  have hcons : encode_table b ++ E = c :: (s ++ E) := by rw [hs]; rfl
  have hL : utf8_sequence_length c = (encode_table b).length := by
    have h2 := encode_table_seqlen b hb
    rw [hs] at h2
    rw [hs]
    simpa using h2
  have hlenapp : (c :: (s ++ E)).length = (encode_table b).length + E.length := by
    rw [← hcons]
    simp
  have htake : (c :: (s ++ E)).take (encode_table b).length = encode_table b := by
    rw [← hcons]
    exact List.take_left _ _
  have hdrop : (c :: (s ++ E)).drop (encode_table b).length = E := by
    rw [← hcons]
    exact List.drop_left _ _
  rw [hcons, decode_go_cons, hL, hlenapp]
  rw [if_neg (by omega)]
  rw [decode_try_hit _ _ hlen3 (by rw [hlenapp]; omega) b hlen1
    (by rw [htake]; exact decode_table_encode b hb)]
  show b :: decode_go fuel ((c :: (s ++ E)).drop (encode_table b).length) = b :: decode_go fuel E
  rw [hdrop]

/-- Round-trip of the scan loop against encoder output, for any
sufficient fuel. -/
theorem decode_go_encode :
    ∀ (B : List Nat) (fuel : Nat), (∀ b ∈ B, b < 256) → B.length ≤ fuel →
      decode_go fuel (encode_data B) = B := by
  intro B
  induction B with
  | nil =>
    intro fuel _ _
    cases fuel <;> rfl
  | cons b B ih =>
    intro fuel hB hf
    obtain ⟨f, rfl⟩ : ∃ f, fuel = f + 1 := ⟨fuel - 1, by simp at hf; omega⟩
    rw [encode_data_cons, decode_go_step b (hB b (by simp)) _ f]
    rw [ih f (fun x hx => hB x (by simp [hx])) (by simp at hf; omega)]

/-- Each input byte contributes at least one encoded byte. -/
theorem length_le_encode_length :
    ∀ B : List Nat, (∀ b ∈ B, b < 256) → B.length ≤ (encode_data B).length := by
  intro B
  induction B with
  | nil => simp [encode_data]
  | cons b B ih =>
    intro hB
    rw [encode_data_cons]
    have h1 := (encode_table_len b (hB b (by simp))).1
    have h2 := ih (fun x hx => hB x (by simp [hx]))
    simp only [List.length_cons, List.length_append]
    omega

/-- Shared round-trip lemma: decoding the encoding of any byte buffer
recovers the buffer. -/
theorem decode_encode (B : List Nat) (hB : ∀ b ∈ B, b < 256) :
    decode_data (encode_data B) = B :=
  decode_go_encode B _ hB (length_le_encode_length B hB)

theorem utf8_sequence_length_pos (c : Nat) : 1 ≤ utf8_sequence_length c := by
  unfold utf8_sequence_length
  split
  · omega
  · split
    · omega
    · split <;> omega

/-- Unfolding of one iteration of the formatter loop. -/
theorem format_go_cons (g n fuel cc first : Nat) (rest : List Nat) :
    format_go g n (fuel + 1) cc (first :: rest) =
      (first :: rest).take (utf8_sequence_length first) ++
        (if (cc + 1) % g = 0 ∧ (first :: rest).drop (utf8_sequence_length first) ≠ [] then
          32 :: (if ((cc + 1) / g) % n = 0 ∧
              (first :: rest).drop (utf8_sequence_length first) ≠ [] then [10] else [])
        else []) ++
        format_go g n fuel (cc + 1) ((first :: rest).drop (utf8_sequence_length first)) := rfl

theorem clean_append (a c : List Nat) :
    clean_decode_input (a ++ c) = clean_decode_input a ++ clean_decode_input c := by
  simp [clean_decode_input]

/-- The bytes the formatter inserts are all removed by the sanitizer. -/
theorem clean_sep (g n cc : Nat) (rem : List Nat) :
    clean_decode_input
      (if cc % g = 0 ∧ rem ≠ [] then
        32 :: (if (cc / g) % n = 0 ∧ rem ≠ [] then [10] else [])
      else []) = [] := by
  split
  · split <;> rfl
  · rfl

/-- Sanitizing formatted output gives back the sanitized raw buffer: the
formatter only reorders nothing and inserts sanitizer-removed bytes. -/
theorem clean_format_go (g n : Nat) :
    ∀ (fuel : Nat) (cc : Nat) (X : List Nat), X.length ≤ fuel →
      clean_decode_input (format_go g n fuel cc X) = clean_decode_input X := by
  intro fuel
  induction fuel with
  | zero =>
    intro cc X hX
    have hXnil : X = [] := List.length_eq_zero.mp (by omega)
    subst hXnil
    rfl
  | succ f ih =>
    intro cc X hX
    cases X with
    | nil => rfl
    | cons first rest =>
      rw [format_go_cons, clean_append, clean_append, clean_sep]
      rw [ih (cc + 1) _ (by
        rw [List.length_drop]
        simp only [List.length_cons] at hX ⊢
        have := utf8_sequence_length_pos first
        omega)]
      rw [List.append_nil, ← clean_append, List.take_append_drop]

/-- Every byte of the encoder's output comes from some input byte's
sequence. -/
theorem mem_encode_data :
    ∀ (B : List Nat) (c : Nat), c ∈ encode_data B → ∃ b, b ∈ B ∧ c ∈ encode_table b := by
  intro B
  induction B with
  | nil =>
    intro c hc
    simp [encode_data] at hc
  | cons b B ih =>
    intro c hc
    rw [encode_data_cons] at hc
    rcases List.mem_append.mp hc with h | h
    · exact ⟨b, by simp, h⟩
    · obtain ⟨b', hb', hcb'⟩ := ih c h
      exact ⟨b', by simp [hb'], hcb'⟩

/-- Sanitizing raw encoder output is the identity. -/
theorem clean_encode_data (B : List Nat) (hB : ∀ b ∈ B, b < 256) :
    clean_decode_input (encode_data B) = encode_data B := by
  apply List.filter_eq_self.mpr
  intro c hc
  obtain ⟨b, hb, hcb⟩ := mem_encode_data B c hc
  have h := encode_table_no_ws b (hB b hb) c hcb
  simp at h ⊢
  tauto

theorem encode_data_eq_nil (B : List Nat) (hB : ∀ b ∈ B, b < 256) :
    encode_data B = [] ↔ B = [] := by
  cases B with
  | nil => simp [encode_data]
  | cons b B =>
    rw [encode_data_cons]
    constructor
    · intro h
      rcases List.append_eq_nil.mp h with ⟨h1', _⟩
      have h1 := (encode_table_len b (hB b (by simp))).1
      rw [h1'] at h1
      simp at h1
    · intro h
      exact absurd h (by simp)

/-- The formatter on encoder output refines the unit-boundary formatter:
chunks re-derived from the length heuristic are exactly the encoded
sequences, so separators land only between complete sequences. -/
theorem format_go_encode (g n : Nat) :
    ∀ (B : List Nat) (cc fuel : Nat), (∀ b ∈ B, b < 256) → B.length ≤ fuel →
      format_go g n fuel cc (encode_data B) = formatUnitsSpec g n cc (B.map encode_table) := by
  intro B
  induction B with
  | nil =>
    intro cc fuel _ _
    show format_go g n fuel cc [] = []
    cases fuel <;> rfl
  | cons b B ih =>
    intro cc fuel hB hf
    obtain ⟨f, rfl⟩ : ∃ f, fuel = f + 1 := ⟨fuel - 1, by simp at hf; omega⟩
    have hb : b < 256 := hB b (by simp)
    have hB' : ∀ x ∈ B, x < 256 := fun x hx => hB x (by simp [hx])
    obtain ⟨hlen1, hlen3⟩ := encode_table_len b hb
    obtain ⟨c, s, hs⟩ : ∃ c s, encode_table b = c :: s := by
      cases h : encode_table b with
      | nil => rw [h] at hlen1; simp at hlen1
      | cons c s => exact ⟨c, s, rfl⟩
    have hcons : encode_table b ++ encode_data B = c :: (s ++ encode_data B) := by
      rw [hs]; rfl
    have hL : utf8_sequence_length c = (encode_table b).length := by
      have h2 := encode_table_seqlen b hb
      rw [hs] at h2
      rw [hs]
      simpa using h2
    have htake : (c :: (s ++ encode_data B)).take (encode_table b).length = encode_table b := by
      rw [← hcons]
      exact List.take_left _ _
    have hdrop : (c :: (s ++ encode_data B)).drop (encode_table b).length = encode_data B := by
      rw [← hcons]
      exact List.drop_left _ _
    rw [encode_data_cons, hcons, format_go_cons, hL, htake, hdrop]
    rw [List.map_cons]
    show encode_table b ++
        (if (cc + 1) % g = 0 ∧ encode_data B ≠ [] then
          32 :: (if ((cc + 1) / g) % n = 0 ∧ encode_data B ≠ [] then [10] else [])
        else []) ++
        format_go g n f (cc + 1) (encode_data B) =
      encode_table b ++
        (if (cc + 1) % g = 0 ∧ B.map encode_table ≠ [] then
          32 :: (if ((cc + 1) / g) % n = 0 ∧ B.map encode_table ≠ [] then [10] else [])
        else []) ++
        formatUnitsSpec g n (cc + 1) (B.map encode_table)
    rw [ih (cc + 1) f hB' (by simp at hf; omega)]
    by_cases hBnil : B = []
    · subst hBnil
      simp [encode_data]
    · have h1 : encode_data B ≠ [] := by
        rw [ne_eq, encode_data_eq_nil B hB']
        exact hBnil
      have h2 : B.map encode_table ≠ [] := by
        rw [ne_eq, List.map_eq_nil_iff]
        exact hBnil
      simp only [ne_eq, h1, h2, not_false_eq_true, and_true]

/-- A hit of the matching loop consumed between 1 and `input.length`
bytes. -/
theorem decode_try_bound (input : List Nat) :
    ∀ (len : Nat) (bl : Nat × Nat), decode_try input len = some bl →
      1 ≤ bl.2 ∧ bl.2 ≤ input.length := by
  intro len
  induction len with
  | zero =>
    intro bl h
    simp [decode_try] at h
  | succ k ih =>
    intro bl h
    rw [decode_try] at h
    split at h
    · split at h
      · rename_i hl
        split at h
        · cases h
          exact ⟨Nat.succ_le_succ (Nat.zero_le k), hl⟩
        · exact ih bl h
      · exact ih bl h
    · exact Option.noConfusion h

/-- The scan loop never emits more bytes than it consumes. -/
theorem decode_go_length :
    ∀ (fuel : Nat) (input : List Nat), (decode_go fuel input).length ≤ input.length := by
  intro fuel
  induction fuel with
  | zero =>
    intro input
    simp [decode_go]
  | succ f ih =>
    intro input
    cases input with
    | nil => simp [decode_go]
    | cons first rest =>
      rw [decode_go_cons]
      split
      · rename_i bl htry
        have hb := decode_try_bound _ _ bl htry
        have h1 := ih ((first :: rest).drop bl.2)
        rw [List.length_drop] at h1
        simp only [List.length_cons] at hb h1 ⊢
        omega
      · have h1 := ih rest
        simp only [List.length_cons]
        omega

/-- A starting length of 4 fails the loop condition `len <= 3` before the
first iteration: no lookup at any length happens. -/
theorem decode_try_four (input : List Nat) : decode_try input 4 = none := rfl

/-- For starting lengths 1–3 the loop shrinks by one on a miss (no table
entry at the current length, or not enough bytes left). -/
theorem decode_try_shrink (input : List Nat) (l : Nat) (h1 : 1 ≤ l) (h3 : l ≤ 3)
    (hmiss : decode_table (utf8_hash (input.take l)) = none ∨ input.length < l) :
    decode_try input l = decode_try input (l - 1) := by
  obtain ⟨k, rfl⟩ : ∃ k, l = k + 1 := ⟨l - 1, by omega⟩
  rcases hmiss with hm | hm
  · by_cases hl : k + 1 ≤ input.length
    · simp [decode_try, h3, hl, hm]
    · simp [decode_try, h3, hl]
  · have hl : ¬ (k + 1 ≤ input.length) := by omega
    simp [decode_try, h3, hl]

/-- When at least 4 bytes remain under a leading byte ≥ 0xF0 the clamped
starting length is 4, the matching loop does nothing, and the scan skips
exactly one byte. -/
theorem decode_go_skip_four (fuel first : Nat) (rest : List Nat) (h240 : 240 ≤ first)
    (h4 : 4 ≤ (first :: rest).length) :
    decode_go (fuel + 1) (first :: rest) = decode_go fuel rest := by
  have hsl : utf8_sequence_length first = 4 := by
    unfold utf8_sequence_length
    rw [if_neg (by omega), if_neg (by omega), if_neg (by omega)]
  rw [decode_go_cons, hsl, if_neg (by omega), decode_try_four]

/-- The byte-to-sequence table is injective, a consequence of the decode
table inverting it. -/
theorem encode_table_inj (b1 b2 : Nat) (h1 : b1 < 256) (h2 : b2 < 256)
    (he : encode_table b1 = encode_table b2) : b1 = b2 := by
  have e1 := decode_table_encode b1 h1
  have e2 := decode_table_encode b2 h2
  rw [he] at e1
  have := e1.symm.trans e2
  simpa using this

/-- C1: for every byte buffer B (including the empty, all-zero and
all-0xFF buffers), decoding the encoding of B yields exactly B. -/
theorem C1_round_trip (B : List Nat) (hB : ∀ b ∈ B, b < 256) :
    decode_data (encode_data B) = B :=
  decode_encode B hB

theorem C1_round_trip_witness :
    (∀ b ∈ [0, 9, 65, 128, 192, 255], b < 256) ∧
      decode_data (encode_data [0, 9, 65, 128, 192, 255]) = [0, 9, 65, 128, 192, 255] :=
  ⟨by decide, C1_round_trip [0, 9, 65, 128, 192, 255] (by decide)⟩

/-- C2: for every byte buffer B and all group sizes g ≥ 1, n ≥ 1,
formatting the encoding of B, sanitizing, and decoding recovers B. -/
theorem C2_format_round_trip (B : List Nat) (g n : Nat) (hg : 1 ≤ g) (hn : 1 ≤ n)
    (hB : ∀ b ∈ B, b < 256) :
    decode_data (clean_decode_input (format_output (encode_data B) g n)) = B := by
  unfold format_output
  rw [clean_format_go g n _ 0 _ (le_refl _), clean_encode_data B hB]
  exact decode_encode B hB

theorem C2_format_round_trip_witness :
    decode_data (clean_decode_input (format_output (encode_data [0, 65, 255]) 1 1)) =
      [0, 65, 255] :=
  C2_format_round_trip [0, 65, 255] 1 1 (by decide) (by decide) (by decide)

/-- C3: the encode table is injective — distinct byte values in [0,255]
receive distinct byte sequences. -/
theorem C3_injectivity : ∀ b1 b2, b1 < 256 → b2 < 256 → b1 ≠ b2 →
    encode_table b1 ≠ encode_table b2 := by
  intro b1 b2 h1 h2 hne he
  exact hne (encode_table_inj b1 b2 h1 h2 he)

theorem C3_injectivity_witness : encode_table 65 ≠ encode_table 66 :=
  C3_injectivity 65 66 (by decide) (by decide) (by decide)

/-- C4: the encode table is complete — every byte value in [0,255] is
assigned a defined, non-empty sequence of 1 to 3 bytes. -/
theorem C4_completeness : ∀ b, b < 256 →
    1 ≤ (encode_table b).length ∧ (encode_table b).length ≤ 3 := by
  intro b hb
  exact encode_table_len b hb

theorem C4_completeness_witness :
    1 ≤ (encode_table 0).length ∧ (encode_table 0).length ≤ 3 :=
  C4_completeness 0 (by decide)

/-- C5 counterexample: the claim says retry-by-shrinking is also
performed when the estimated length is 4.  At input [0xF0 0x41 0x41 0x41]
the estimated length at position 0 is 4 and a length-3 lookup would hit
(the 3-byte hash of F0 41 41 equals 0x41, the live entry for byte 0x41),
so a shrink to length 3 would consume three bytes and produce [65, 65];
the decoder instead performs no lookup, skips the leading byte, and
produces [65, 65, 65]. -/
theorem C5_counterexample :
    utf8_sequence_length 240 = 4 ∧
    decode_table (utf8_hash (List.take 3 [240, 65, 65, 65])) = some 65 ∧
    decode_data [240, 65, 65, 65] = [65, 65, 65] ∧
    decode_data [240, 65, 65, 65] ≠ [65, 65] := by decide

/-- C5 as amended: the matching loop retries by shrinking (down to a
floor of 1) only when the current length is at most 3 — on a miss at that
length or when too few bytes remain; length 4 is never used as a lookup
key, and when the estimated length is 4 with at least 4 bytes remaining
the `len <= 3` loop condition fails before the first iteration, so no
lookup is performed at any length and the decoder falls directly to
skipping a single byte. -/
theorem C5_amended :
    (∀ input : List Nat, decode_try input 4 = none) ∧
    (∀ (input : List Nat) (l : Nat), 1 ≤ l → l ≤ 3 →
      (decode_table (utf8_hash (input.take l)) = none ∨ input.length < l) →
      decode_try input l = decode_try input (l - 1)) ∧
    (∀ (fuel first : Nat) (rest : List Nat), 240 ≤ first → 4 ≤ (first :: rest).length →
      decode_go (fuel + 1) (first :: rest) = decode_go fuel rest) :=
  ⟨decode_try_four, decode_try_shrink, decode_go_skip_four⟩

theorem C5_amended_witness :
    decode_try [240, 65, 65, 65] 4 = none ∧
    decode_try [0xC3, 0x41] 2 = decode_try [0xC3, 0x41] 1 ∧
    decode_go 4 [240, 65, 65, 65] = decode_go 3 [65, 65, 65] :=
  ⟨C5_amended.1 [240, 65, 65, 65],
    C5_amended.2.1 [0xC3, 0x41] 2 (by decide) (by decide) (Or.inl (by decide)),
    C5_amended.2.2 3 240 [65, 65, 65] (by decide) (by decide)⟩

/-- C6: the length-dependent decode hash is injective on the produced
sequences — every byte's table entry at the hash of its sequence is
present (valid) and maps back to that byte, so no entry is overwritten
during construction, and no two produced sequences share a hash. -/
theorem C6_hash_injective :
    (∀ b, b < 256 → decode_table (utf8_hash (encode_table b)) = some b) ∧
    (∀ b1 b2, b1 < 256 → b2 < 256 →
      utf8_hash (encode_table b1) = utf8_hash (encode_table b2) → b1 = b2) := by
  refine ⟨decode_table_encode, ?_⟩
  intro b1 b2 h1 h2 hh
  have e1 := decode_table_encode b1 h1
  have e2 := decode_table_encode b2 h2
  rw [hh] at e1
  have := e1.symm.trans e2
  simpa using this

theorem C6_hash_injective_witness :
    decode_table (utf8_hash (encode_table 0)) = some 0 :=
  C6_hash_injective.1 0 (by decide)

/-- C7: for any group configuration and any encoder output, the
formatter's result equals the unit-boundary formatter applied to the list
of encoded sequences — every inserted separator lies between complete
sequences, never inside one. -/
theorem C7_boundary (B : List Nat) (g n : Nat) (hg : 1 ≤ g) (hn : 1 ≤ n)
    (hB : ∀ b ∈ B, b < 256) :
    format_output (encode_data B) g n = formatUnitsSpec g n 0 (B.map encode_table) := by
  unfold format_output
  exact format_go_encode g n B 0 _ hB (length_le_encode_length B hB)

theorem C7_boundary_witness :
    format_output (encode_data [65, 66, 67]) 2 1 =
      formatUnitsSpec 2 1 0 ([65, 66, 67].map encode_table) :=
  C7_boundary [65, 66, 67] 2 1 (by decide) (by decide) (by decide)

/-- C8: decoding any input buffer terminates (the embedding is a total
structurally-recursive function) and emits at most one output byte per
input byte, so the output never exceeds the input length and the C
output buffer of size `input_len` cannot overflow-abort. -/
theorem C8_resilience (input : List Nat) : (decode_data input).length ≤ input.length :=
  decode_go_length input.length input

/-- C9: the produced sequence set is prefix-free — for distinct byte
values, one's sequence is never a byte-prefix of the other's. -/
theorem C9_prefix_free : ∀ b1 b2, b1 < 256 → b2 < 256 → b1 ≠ b2 →
    ∀ t, encode_table b1 ++ t ≠ encode_table b2 := by
  intro b1 b2 h1 h2 hne t heq
  obtain ⟨hlen1, _⟩ := encode_table_len b1 h1
  obtain ⟨c, s, hs⟩ : ∃ c s, encode_table b1 = c :: s := by
    cases h : encode_table b1 with
    | nil => rw [h] at hlen1; simp at hlen1
    | cons c s => exact ⟨c, s, rfl⟩
  have hhead : (encode_table b2).headD 0 = c := by
    rw [← heq, hs]
    rfl
  have hl1 : utf8_sequence_length c = (encode_table b1).length := by
    have h2' := encode_table_seqlen b1 h1
    rw [hs] at h2'
    simp only [List.headD_cons] at h2'
    rw [hs]
    exact h2'
  have hl2 : utf8_sequence_length c = (encode_table b2).length := by
    have h2' := encode_table_seqlen b2 h2
    rw [hhead] at h2'
    exact h2'
  have happlen := congrArg List.length heq
  rw [List.length_append] at happlen
  have ht : t = [] := List.length_eq_zero.mp (by omega)
  subst ht
  rw [List.append_nil] at heq
  exact hne (encode_table_inj b1 b2 h1 h2 heq)

theorem C9_prefix_free_witness : encode_table 0 ++ [] ≠ encode_table 1 :=
  C9_prefix_free 0 1 (by decide) (by decide) (by decide) []

/-- C10: encoder output never contains a whitespace byte (space 0x20, tab
0x09, line feed 0x0A, carriage return 0x0D), and consequently sanitizing
raw (unformatted) encoder output leaves it unchanged. -/
theorem C10_encoder_no_whitespace (B : List Nat) (hB : ∀ b ∈ B, b < 256) :
    (∀ c ∈ encode_data B, ¬(c = 32 ∨ c = 9 ∨ c = 10 ∨ c = 13)) ∧
    clean_decode_input (encode_data B) = encode_data B := by
  constructor
  · intro c hc
    obtain ⟨b, hb, hcb⟩ := mem_encode_data B c hc
    exact encode_table_no_ws b (hB b hb) c hcb
  · exact clean_encode_data B hB

theorem C10_encoder_no_whitespace_witness :
    clean_decode_input (encode_data [0, 9, 10, 13, 32, 65]) =
      encode_data [0, 9, 10, 13, 32, 65] :=
  (C10_encoder_no_whitespace [0, 9, 10, 13, 32, 65] (by decide)).2
